import Mathlib

/-!
A shallow embedding of `src/linked_list/mod.rs` from `hi-rustin/my-std`:
a singly linked list `LinkedList<T>` built from `Node<T>` cells connected
by forward `next` links, together with a maintained `len` counter.

Modelling choices:

* A `Node<T>` chain starting at some node is a nonempty `List T`
  (`elem` is the list head, `next` is the tail, with `None` as `[]`).
  The list's `head : Option<Rc<RefCell<Node<T>>>>` is therefore a plain
  `List T`.  Finiteness and acyclicity of the chain, and the absence of
  the last node's `next`, are intrinsic to this representation.
* The `len` field is kept separate from the chain, exactly as in the
  source, so that the invariant "`len` equals the number of reachable
  nodes" (`Inv` below) is a real statement about the code and the loop
  bounds that read `self.len()` are modelled faithfully.
* Rust panics (the explicit out-of-range panics of `insert`/`remove`
  and the `Option::unwrap` panics of the traversals) are modelled by
  `Except (String × LinkedList T) α`: the error carries the panic
  message and the state of the list at the moment of the panic.
  `push` cannot panic (its only `unwrap` is guarded by `is_some`),
  so it stays a total function.
* Machine integers: `len: usize` becomes `Nat`.  The only subtractions
  performed by the source (`self.len() - 1` in `pop` after the emptiness
  check, `self.len -= 1` after it) never underflow, and Rust's empty
  range `1..0` (for a one-element list) coincides with the saturating
  `Nat` subtraction used here.
-/

set_option autoImplicit false

/-- `LinkedList<T>`: an optional head node (the element chain, as a list)
and the maintained length counter. -/
structure LinkedList (T : Type) where
  head : List T
  len : Nat
  deriving DecidableEq, Repr

namespace LinkedList

/-- `LinkedList::new`: empty chain, zero length. -/
def new {T : Type} : LinkedList T := ⟨[], 0⟩

/-- `Default::default`, which the source defines as `Self::new()`. -/
def default {T : Type} : LinkedList T := new

/-- `is_empty`: `self.len == 0` (reads the counter, not the chain). -/
def is_empty {T : Type} (l : LinkedList T) : Bool := l.len == 0

/-- The panic message of `Option::unwrap` on `None`. -/
def unwrapMsg : String := "called Option::unwrap() on a None value"

/-- The panic message of `insert` for an out-of-range index
(interpolated from the offending index and the current length). -/
def insertPanicMsg (index length : Nat) : String :=
  "insertion index (is " ++ toString index ++ ") should be <= len (is " ++
    toString length ++ ")"

/-- The panic message of `remove` for an out-of-range index
(interpolated from the offending index and the current length). -/
def removePanicMsg (index length : Nat) : String :=
  "removal index (is " ++ toString index ++ ") should be < len (is " ++
    toString length ++ ")"

/-- The tail-append traversal of `push`: walk `next` links while
`current.next.is_some()`, then attach the new node at the end. -/
def pushChain {T : Type} : List T → T → List T
  | [], e => [e]
  | x :: xs, e => x :: pushChain xs e

/-- `push`: if `head` is absent the new node becomes `head`; otherwise
traverse to the last node and attach the new node there.  Always
increments `len` by 1; has no failure branch. -/
def push {T : Type} (l : LinkedList T) (e : T) : LinkedList T :=
  match l.head with
  | [] => ⟨[e], l.len + 1⟩
  | x :: xs => ⟨x :: pushChain xs e, l.len + 1⟩

/-- The traversal loop of `pop` (`for _ in 1..(self.len() - 1)`), with
the iteration count as fuel.  State: `p` is `prev`'s element, `c` is
`current` (an optional node, i.e. a possibly empty chain suffix).  Each
iteration does `next = current.unwrap().next; prev = current;
current = next`; `none` models the `unwrap` panic on an exhausted
chain. -/
def popLoop {T : Type} : T → List T → Nat → Option (T × List T)
  | p, c, 0 => some (p, c)
  | _, [], _ + 1 => none
  | _, x :: xs, _k + 1 => popLoop x xs _k

/-- `pop`: returns `None` on an empty list (by the `is_empty` counter
check), otherwise walks `prev`/`current` to the tail using the counter
for the loop bound.  If `current` ends up absent (the one-element case)
the head is cleared and `prev`'s element returned; otherwise `prev`'s
`next` is severed (the chain is cut after `prev`, which sits at the
index given by the number of loop iterations) and `current`'s element
returned.  `len` is decremented in both branches. -/
def pop {T : Type} (l : LinkedList T) :
    Except (String × LinkedList T) (Option T × LinkedList T) :=
  if l.is_empty then .ok (none, l)
  else
    match l.head with
    | [] => .error (unwrapMsg, l)
    | h :: rest =>
      match popLoop h rest (l.len - 1 - 1) with
      | none => .error (unwrapMsg, l)
      | some (p, current) =>
        match current with
        | [] => .ok (some p, ⟨[], l.len - 1⟩)
        | c :: _ => .ok (some c, ⟨l.head.take (l.len - 1 - 1 + 1), l.len - 1⟩)

/-- The traversal-and-splice of `insert`: `current = head.unwrap()`,
then `index` steps of `current = current.next.unwrap()`, then the new
node takes over `current.next` and `current.next` points at the new
node.  `none` models an `unwrap` panic (chain shorter than the
traversal). -/
def insertLoop {T : Type} : List T → Nat → T → Option (List T)
  | [], _, _ => none
  | x :: xs, 0, e => some (x :: e :: xs)
  | x :: xs, n + 1, e => (insertLoop xs n e).map (fun c => x :: c)

/-- `insert`: panics (with index and length in the message) when
`index >= self.len()`, before touching the chain; otherwise splices the
element in after the node at `index` and increments `len`. -/
def insert {T : Type} (l : LinkedList T) (index : Nat) (e : T) :
    Except (String × LinkedList T) (LinkedList T) :=
  if l.len ≤ index then .error (insertPanicMsg index l.len, l)
  else
    match insertLoop l.head index e with
    | none => .error (unwrapMsg, l)
    | some c => .ok ⟨c, l.len + 1⟩

/-- The traversal-and-unlink of `remove`: walk `index` steps tracking
`prev`; take the target's `next` and reattach it to `prev.next`, or to
`head` when removing the first node.  Returns the removed element and
the resulting chain; `none` models an `unwrap` panic. -/
def removeLoop {T : Type} : List T → Nat → Option (T × List T)
  | [], _ => none
  | x :: xs, 0 => some (x, xs)
  | x :: xs, n + 1 => (removeLoop xs n).map (fun rc => (rc.1, x :: rc.2))

/-- `remove`: panics (with index and length in the message) when
`index >= self.len()`, before touching the chain; otherwise unlinks the
node at `index`, decrements `len` and returns the removed element. -/
def remove {T : Type} (l : LinkedList T) (index : Nat) :
    Except (String × LinkedList T) (T × LinkedList T) :=
  if l.len ≤ index then .error (removePanicMsg index l.len, l)
  else
    match removeLoop l.head index with
    | none => .error (unwrapMsg, l)
    | some rc => .ok (rc.1, ⟨rc.2, l.len - 1⟩)

/-- The structural invariant of the data model: the maintained counter
equals the number of nodes reachable from `head`.  (The chain being
finite and acyclic with an absent `next` at the last node is intrinsic
to the `List` representation; `head = [] ↔ len = 0` is a consequence,
proved below.) -/
def Inv {T : Type} (l : LinkedList T) : Prop := l.len = l.head.length

instance {T : Type} (l : LinkedList T) : Decidable (Inv l) :=
  Nat.decEq l.len l.head.length

end LinkedList

namespace LinkedList

/-! ### Characterisation lemmas for the operations -/

theorem pushChain_eq {T : Type} (xs : List T) (e : T) :
    pushChain xs e = xs ++ [e] := by
  induction xs with
  | nil => rfl
  | cons x xs ih => simp [pushChain, ih]

/-- `push` appends at the tail and bumps the counter. -/
theorem push_eq {T : Type} (l : LinkedList T) (e : T) :
    l.push e = ⟨l.head ++ [e], l.len + 1⟩ := by
  obtain ⟨chain, n⟩ := l
  cases chain with
  | nil => rfl
  | cons x xs => simp [push, pushChain_eq]

/-- The `pop` loop, run for `k` iterations from `prev` element `p` and
`current` suffix `c`, ends with `prev` holding the element `k` links
down from `p and `current` holding the suffix `k` links down from
`c`. -/
theorem popLoop_eq {T : Type} :
    ∀ (k : Nat) (p x : T) (c : List T), (p :: c)[k]? = some x →
      popLoop p c k = some (x, c.drop k) := by
  intro k
  induction k with
  | zero =>
    intro p x c hx
    simp only [List.getElem?_cons_zero, Option.some.injEq] at hx
    simp [popLoop, hx]
  | succ k ih =>
    intro p x c hx
    cases c with
    | nil => simp at hx
    | cons q c' =>
      have hq : (q :: c')[k]? = some x := by simpa using hx
      simpa [popLoop] using ih q x c' hq

/-- A list one longer than `j` dropped at `j` is the singleton of its
element at `j`. -/
theorem drop_to_last {T : Type} :
    ∀ (d : List T) (j : Nat), d.length = j + 1 →
      ∃ a, d[j]? = some a ∧ d.drop j = [a] := by
  intro d
  induction d with
  | nil => intro j h; simp at h
  | cons x xs ih =>
    intro j h
    cases j with
    | zero =>
      have hxs : xs = [] := by
        have : xs.length = 0 := by simpa using h
        simpa [List.length_eq_zero] using this
      exact ⟨x, by simp, by simp [hxs]⟩
    | succ j =>
      have hx : xs.length = j + 1 := by simpa using h
      obtain ⟨a, ha1, ha2⟩ := ih j hx
      exact ⟨a, by simpa using ha1, by simpa using ha2⟩

/-- `pop` on an empty counter returns `None` and leaves the list
untouched (this needs no invariant: the branch only reads `len`). -/
theorem pop_of_len_zero {T : Type} (l : LinkedList T) (h : l.len = 0) :
    l.pop = .ok (none, l) := by
  simp [pop, is_empty, h]

/-- Full characterisation of `pop` on a valid nonempty list: it returns
the element at index `len - 1` (the last) and keeps the first `len - 1`
elements. -/
theorem pop_eq_of_inv {T : Type} (l : LinkedList T) (hInv : Inv l) (h0 : l.len ≠ 0) :
    l.pop = .ok (l.head[l.len - 1]?, ⟨l.head.take (l.len - 1), l.len - 1⟩) := by
  obtain ⟨chain, n⟩ := l
  simp only [Inv] at hInv
  dsimp only at hInv h0 ⊢
  subst hInv
  cases chain with
  | nil => simp at h0
  | cons hd rest =>
    cases rest with
    | nil => rfl
    | cons q rest' =>
      have hlen : (hd :: q :: rest' : List T).length = rest'.length + 2 := by
        simp
      rw [hlen]
      have hx : (hd :: q :: rest' : List T)[rest'.length]? =
          some ((hd :: q :: rest').get ⟨rest'.length, by simp; omega⟩) :=
        List.getElem?_eq_getElem (by simp; omega)
      obtain ⟨a, ha1, ha2⟩ :=
        drop_to_last (q :: rest') rest'.length (by simp)
      have hpl := popLoop_eq rest'.length hd _ (q :: rest') hx
      rw [ha2] at hpl
      have e2 : rest'.length + 2 - 1 = rest'.length + 1 := by omega
      have e5 : rest'.length + 1 - 1 = rest'.length := by omega
      have hlast : (hd :: q :: rest' : List T)[rest'.length + 1]? = some a := by
        simpa [List.getElem?_cons_succ] using ha1
      simp only [pop, is_empty]
      rw [if_neg (by simp), e2, e5, hpl, hlast]

/-- The `insert` traversal on a chain long enough for the walk splices
the element in right after position `i`. -/
theorem insertLoop_eq {T : Type} :
    ∀ (c : List T) (i : Nat) (e : T), i < c.length →
      insertLoop c i e = some (c.take (i + 1) ++ e :: c.drop (i + 1)) := by
  intro c
  induction c with
  | nil => intro i e h; simp at h
  | cons x xs ih =>
    intro i e h
    cases i with
    | zero => simp [insertLoop]
    | succ i =>
      have hx : i < xs.length := by simpa using h
      simp [insertLoop, ih i e hx]

/-- In-range `insert` on a valid list: the element lands after position
`index` and the counter goes up by one. -/
theorem insert_eq_of_lt {T : Type} (l : LinkedList T) (i : Nat) (e : T)
    (hInv : Inv l) (hi : i < l.len) :
    l.insert i e =
      .ok ⟨l.head.take (i + 1) ++ e :: l.head.drop (i + 1), l.len + 1⟩ := by
  have hlen : i < l.head.length := hInv ▸ hi
  simp [insert, Nat.not_le.mpr hi, insertLoop_eq l.head i e hlen]

/-- Out-of-range `insert` panics immediately, reporting the index and
the length, with the list still in its pre-call state. -/
theorem insert_eq_of_ge {T : Type} (l : LinkedList T) (i : Nat) (e : T)
    (hi : l.len ≤ i) :
    l.insert i e = .error (insertPanicMsg i l.len, l) := by
  simp [insert, hi]

/-- The `remove` traversal on a chain long enough for the walk unlinks
the node at position `i` and returns its element. -/
theorem removeLoop_eq {T : Type} :
    ∀ (c : List T) (i : Nat) (h : i < c.length),
      removeLoop c i = some (c.get ⟨i, h⟩, c.take i ++ c.drop (i + 1)) := by
  intro c
  induction c with
  | nil => intro i h; simp at h
  | cons x xs ih =>
    intro i h
    cases i with
    | zero => simp [removeLoop]
    | succ i =>
      have hx : i < xs.length := by simpa using h
      simp [removeLoop, ih i hx]

/-- In-range `remove` on a valid list: returns the element at `index`,
drops that node, decrements the counter. -/
theorem remove_eq_of_lt {T : Type} (l : LinkedList T) (i : Nat)
    (hInv : Inv l) (hi : i < l.len) :
    l.remove i =
      .ok (l.head.get ⟨i, hInv ▸ hi⟩,
        ⟨l.head.take i ++ l.head.drop (i + 1), l.len - 1⟩) := by
  simp [remove, Nat.not_le.mpr hi, removeLoop_eq l.head i (hInv ▸ hi)]

/-- Out-of-range `remove` panics immediately, reporting the index and
the length, with the list still in its pre-call state. -/
theorem remove_eq_of_ge {T : Type} (l : LinkedList T) (i : Nat)
    (hi : l.len ≤ i) :
    l.remove i = .error (removePanicMsg i l.len, l) := by
  simp [remove, hi]

end LinkedList

/-! ### The claims -/

/-- Claim C1: for every list (empty or not) and every element `x`,
`push x` appends `x` as the new last node of the chain, leaves all
previously stored elements at their positions in the same order
(the old chain is a prefix of the new one), and increments the length
by exactly 1.  `push` never fails: in the embedding it is a total
function with no error outcome, mirroring the absence of any failure
branch in the source. -/
theorem claim_push_appends_last {T : Type} (l : LinkedList T) (x : T) :
    (l.push x).head = l.head ++ [x] ∧ (l.push x).len = l.len + 1 := by
  simp [LinkedList.push_eq]

/-- Claim C2: on a valid nonempty list, `pop` removes and returns the
last element and decreases the length by exactly 1, the resulting chain
being the old one without its last node (so the new last node's `next`
is absent, which the list representation of the chain makes
intrinsic); on the empty list `pop` returns `none` and performs no
mutation. -/
theorem claim_pop_removes_last {T : Type} (l : LinkedList T)
    (hInv : LinkedList.Inv l) :
    (l.len = 0 → l.pop = .ok (none, l)) ∧
    (l.len ≠ 0 → ∃ x, l.head.getLast? = some x ∧
      l.pop = .ok (some x, ⟨l.head.dropLast, l.len - 1⟩)) := by
  constructor
  · intro h0
    exact LinkedList.pop_of_len_zero l h0
  · intro h0
    have hpop := LinkedList.pop_eq_of_inv l hInv h0
    have hlen : l.len = l.head.length := hInv
    have hlt : l.head.length - 1 < l.head.length := by omega
    refine ⟨l.head.get ⟨l.head.length - 1, hlt⟩, ?_, ?_⟩
    · rw [List.getLast?_eq_getElem?, List.getElem?_eq_getElem hlt]
      simp [List.get_eq_getElem]
    · rw [hpop, List.dropLast_eq_take, hlen, List.getElem?_eq_getElem hlt]
      simp [List.get_eq_getElem]

/-- Witness for C2 at the concrete list `[10, 20]`. -/
theorem claim_pop_removes_last_witness :
    LinkedList.Inv (⟨[10, 20], 2⟩ : LinkedList Nat) ∧
    LinkedList.pop (⟨[10, 20], 2⟩ : LinkedList Nat) = .ok (some 20, ⟨[10], 1⟩) := by
  refine ⟨by decide, ?_⟩
  obtain ⟨x, hx1, hx2⟩ :=
    (claim_pop_removes_last (⟨[10, 20], 2⟩ : LinkedList Nat) (by decide)).2
      (by decide)
  have hx : x = 20 := by simpa using hx1.symm
  subst hx
  simpa using hx2

/-- Claim C3: for every valid list and every in-range index,
`insert index element` places the new element immediately after the
node at position `index` — it becomes the node at position
`index + 1` — keeps all other elements in relative order (the chain
becomes `take (index+1) ++ element :: drop (index+1)`), and increments
the length by 1.  In particular the `push 1; push 2; insert 0 3`
scenario drains by `pop` as 2, then 3, then 1. -/
theorem claim_insert_after_index {T : Type} (l : LinkedList T) (i : Nat) (e : T)
    (hInv : LinkedList.Inv l) (hi : i < l.len) :
    l.insert i e =
      .ok ⟨l.head.take (i + 1) ++ e :: l.head.drop (i + 1), l.len + 1⟩ ∧
    (l.head.take (i + 1) ++ e :: l.head.drop (i + 1))[i + 1]? = some e ∧
    (((LinkedList.new.push 1).push 2).insert 0 3 = .ok ⟨[1, 3, 2], 3⟩ ∧
      LinkedList.pop ⟨[1, 3, 2], 3⟩ = .ok (some 2, ⟨[1, 3], 2⟩) ∧
      LinkedList.pop ⟨[1, 3], 2⟩ = .ok (some 3, ⟨[1], 1⟩) ∧
      LinkedList.pop ⟨[1], 1⟩ = .ok (some 1, ⟨[], 0⟩)) := by
  refine ⟨LinkedList.insert_eq_of_lt l i e hInv hi, ?_, rfl, rfl, rfl, rfl⟩
  have hlt : i < l.head.length := hInv ▸ hi
  have hlen : (l.head.take (i + 1)).length = i + 1 := by
    rw [List.length_take]
    omega
  rw [List.getElem?_append_right (le_of_eq hlen), hlen]
  simp

/-- Witness for C3: inserting 5 at index 1 of `[7, 8, 9]`. -/
theorem claim_insert_after_index_witness :
    LinkedList.Inv (⟨[7, 8, 9], 3⟩ : LinkedList Nat) ∧
    1 < (⟨[7, 8, 9], 3⟩ : LinkedList Nat).len ∧
    LinkedList.insert (⟨[7, 8, 9], 3⟩ : LinkedList Nat) 1 5 =
      .ok ⟨[7, 8, 5, 9], 4⟩ := by
  refine ⟨by decide, by decide, ?_⟩
  have h :=
    (claim_insert_after_index (⟨[7, 8, 9], 3⟩ : LinkedList Nat) 1 5
      (by decide) (by decide)).1
  simpa using h

/-- Claim C4: on a valid list, `insert index x` and `remove index`
abort with a panic exactly when `index ≥ len`, the panic message
reports both the offending index and the current length, and the panic
carries the untouched list; in particular `insert len x` and
`remove len` abort on every list, including the empty one, and never
silently succeed. -/
theorem claim_insert_remove_abort_iff {T : Type} (l : LinkedList T) (i : Nat)
    (x : T) (hInv : LinkedList.Inv l) :
    ((∃ p, l.insert i x = .error p) ↔ l.len ≤ i) ∧
    ((∃ p, l.remove i = .error p) ↔ l.len ≤ i) ∧
    (l.len ≤ i →
      l.insert i x = .error ("insertion index (is " ++ toString i ++
        ") should be <= len (is " ++ toString l.len ++ ")", l) ∧
      l.remove i = .error ("removal index (is " ++ toString i ++
        ") should be < len (is " ++ toString l.len ++ ")", l)) := by
  refine ⟨⟨?_, ?_⟩, ⟨?_, ?_⟩, ?_⟩
  · rintro ⟨p, hp⟩
    by_contra hle
    rw [LinkedList.insert_eq_of_lt l i x hInv (Nat.lt_of_not_le hle)] at hp
    simp at hp
  · intro hle
    exact ⟨_, LinkedList.insert_eq_of_ge l i x hle⟩
  · rintro ⟨p, hp⟩
    by_contra hle
    rw [LinkedList.remove_eq_of_lt l i hInv (Nat.lt_of_not_le hle)] at hp
    simp at hp
  · intro hle
    exact ⟨_, LinkedList.remove_eq_of_ge l i hle⟩
  · intro hle
    exact ⟨LinkedList.insert_eq_of_ge l i x hle,
      LinkedList.remove_eq_of_ge l i hle⟩

/-- Witness for C4: `insert` at index `len() = 0` of the empty list
aborts. -/
theorem claim_insert_remove_abort_iff_witness :
    LinkedList.Inv (LinkedList.new : LinkedList Nat) ∧
    ((∃ p, (LinkedList.new : LinkedList Nat).insert 0 42 = .error p) ↔
      (LinkedList.new : LinkedList Nat).len ≤ 0) := by
  refine ⟨by decide, ?_⟩
  exact (claim_insert_remove_abort_iff LinkedList.new 0 42 (by decide)).1

/-- Claim C5: for every valid list and in-range index, `remove index`
returns the element at position `index`, unlinks that node (the chain
becomes `take index ++ drop (index+1)`, i.e. the successor is relinked
to the predecessor, or to `head` when `index = 0`), decrements the
length by 1, and keeps the remaining elements in relative order. -/
theorem claim_remove_at_index {T : Type} (l : LinkedList T) (i : Nat)
    (hInv : LinkedList.Inv l) (hi : i < l.len) :
    ∃ r, l.head[i]? = some r ∧
      l.remove i =
        .ok (r, ⟨l.head.take i ++ l.head.drop (i + 1), l.len - 1⟩) := by
  have hlt : i < l.head.length := hInv ▸ hi
  refine ⟨l.head.get ⟨i, hlt⟩, ?_, ?_⟩
  · rw [List.getElem?_eq_getElem hlt]
    simp [List.get_eq_getElem]
  · exact LinkedList.remove_eq_of_lt l i hInv hi

/-- Witness for C5: removing index 1 of `[4, 5, 6]`. -/
theorem claim_remove_at_index_witness :
    LinkedList.Inv (⟨[4, 5, 6], 3⟩ : LinkedList Nat) ∧
    1 < (⟨[4, 5, 6], 3⟩ : LinkedList Nat).len ∧
    LinkedList.remove (⟨[4, 5, 6], 3⟩ : LinkedList Nat) 1 =
      .ok (5, ⟨[4, 6], 2⟩) := by
  refine ⟨by decide, by decide, ?_⟩
  obtain ⟨r, hr1, hr2⟩ :=
    claim_remove_at_index (⟨[4, 5, 6], 3⟩ : LinkedList Nat) 1
      (by decide) (by decide)
  have hr : r = 5 := by simpa using hr1.symm
  subst hr
  simpa using hr2

/-- Claim C6: every operation preserves the structural invariants:
`len` always equals the number of nodes reachable from `head` (`Inv`),
and `head` is absent exactly when `len = 0`.  (The chain being finite
and acyclic with the last node's `next` absent is intrinsic to the
`List` embedding of the node chain.)  For the fallible operations the
statement covers every non-panicking outcome. -/
theorem claim_ops_preserve_invariants {T : Type} (l : LinkedList T) (e : T)
    (i : Nat) (hInv : LinkedList.Inv l) :
    LinkedList.Inv (LinkedList.new : LinkedList T) ∧
    LinkedList.Inv (l.push e) ∧
    (∀ r l2, l.pop = .ok (r, l2) → LinkedList.Inv l2) ∧
    (∀ l2, l.insert i e = .ok l2 → LinkedList.Inv l2) ∧
    (∀ r l2, l.remove i = .ok (r, l2) → LinkedList.Inv l2) ∧
    (l.head = [] ↔ l.len = 0) := by
  have hlen : l.len = l.head.length := hInv
  refine ⟨rfl, ?_, ?_, ?_, ?_, ?_⟩
  · simp [LinkedList.Inv, LinkedList.push_eq, hlen]
  · intro r l2 h
    rcases Nat.eq_zero_or_pos l.len with h0 | h0
    · rw [LinkedList.pop_of_len_zero l h0] at h
      obtain ⟨-, h2⟩ : none = r ∧ l = l2 := by simpa using h
      exact h2 ▸ hInv
    · rw [LinkedList.pop_eq_of_inv l hInv (by omega)] at h
      obtain ⟨-, h2⟩ : l.head[l.len - 1]? = r ∧
          (⟨l.head.take (l.len - 1), l.len - 1⟩ : LinkedList T) = l2 := by
        simpa using h
      subst h2
      simp only [LinkedList.Inv, List.length_take]
      omega
  · intro l2 h
    rcases Nat.lt_or_ge i l.len with hi | hi
    · rw [LinkedList.insert_eq_of_lt l i e hInv hi] at h
      obtain h2 : (⟨l.head.take (i + 1) ++ e :: l.head.drop (i + 1),
          l.len + 1⟩ : LinkedList T) = l2 := by simpa using h
      subst h2
      simp only [LinkedList.Inv, List.length_append, List.length_take,
        List.length_cons, List.length_drop]
      omega
    · rw [LinkedList.insert_eq_of_ge l i e hi] at h
      simp at h
  · intro r l2 h
    rcases Nat.lt_or_ge i l.len with hi | hi
    · rw [LinkedList.remove_eq_of_lt l i hInv hi] at h
      obtain ⟨-, h2⟩ : l.head.get ⟨i, hInv ▸ hi⟩ = r ∧
          (⟨l.head.take i ++ l.head.drop (i + 1), l.len - 1⟩ : LinkedList T) = l2 := by
        simpa using h
      subst h2
      simp only [LinkedList.Inv, List.length_append, List.length_take,
        List.length_drop]
      omega
    · rw [LinkedList.remove_eq_of_ge l i hi] at h
      simp at h
  · constructor
    · intro h
      rw [hlen, h]
      rfl
    · intro h
      rw [h] at hlen
      exact (List.length_eq_zero.mp hlen.symm)

/-- Witness for C6 at the one-element list `[3]`. -/
theorem claim_ops_preserve_invariants_witness :
    LinkedList.Inv (⟨[3], 1⟩ : LinkedList Nat) ∧
    LinkedList.Inv ((⟨[3], 1⟩ : LinkedList Nat).push 4) ∧
    ((⟨[3], 1⟩ : LinkedList Nat).head = [] ↔
      (⟨[3], 1⟩ : LinkedList Nat).len = 0) := by
  have h := claim_ops_preserve_invariants (⟨[3], 1⟩ : LinkedList Nat) 4 0
    (by decide)
  exact ⟨by decide, h.2.1, h.2.2.2.2.2⟩

/-- Claim C7: `new` returns the empty list (absent head, zero length)
and is a total function; `default` is the very list `new` returns; and
`is_empty` is true exactly when the counter `len` is zero (`is_empty`
and the `len` accessor both read the maintained `len` field, never
re-traversing the chain — in the embedding `is_empty` is literally
`len == 0` and the length observer is the `len` field itself). -/
theorem claim_constructors_observers {T : Type} (l : LinkedList T) :
    (LinkedList.new : LinkedList T) = ⟨[], 0⟩ ∧
    (LinkedList.default : LinkedList T) = LinkedList.new ∧
    (l.is_empty = true ↔ l.len = 0) := by
  refine ⟨rfl, rfl, ?_⟩
  simp [LinkedList.is_empty]

/-- Claim C8: on a valid nonempty list, `pop` is equivalent to
`remove (len - 1)`: both produce the same resulting list, and the
element `remove (len - 1)` returns is exactly the one `pop` returns
inside its `some`. -/
theorem claim_pop_refines_remove_last {T : Type} (l : LinkedList T)
    (hInv : LinkedList.Inv l) (h0 : l.len ≠ 0) :
    ∃ r l2, l.pop = .ok (some r, l2) ∧ l.remove (l.len - 1) = .ok (r, l2) := by
  have hlt : l.len - 1 < l.len := by omega
  have hlt' : l.len - 1 < l.head.length := hInv ▸ hlt
  refine ⟨l.head.get ⟨l.len - 1, hlt'⟩,
    ⟨l.head.take (l.len - 1), l.len - 1⟩, ?_, ?_⟩
  · rw [LinkedList.pop_eq_of_inv l hInv h0, List.getElem?_eq_getElem hlt']
    simp [List.get_eq_getElem]
  · rw [LinkedList.remove_eq_of_lt l (l.len - 1) hInv hlt]
    have hdrop : l.head.drop (l.len - 1 + 1) = [] := by
      apply List.drop_eq_nil_of_le
      have := hInv
      simp only [LinkedList.Inv] at this
      omega
    rw [hdrop]
    simp

/-- Witness for C8 at `[1, 2, 3]`. -/
theorem claim_pop_refines_remove_last_witness :
    LinkedList.Inv (⟨[1, 2, 3], 3⟩ : LinkedList Nat) ∧
    (⟨[1, 2, 3], 3⟩ : LinkedList Nat).len ≠ 0 ∧
    (∃ r l2, LinkedList.pop (⟨[1, 2, 3], 3⟩ : LinkedList Nat) = .ok (some r, l2) ∧
      LinkedList.remove (⟨[1, 2, 3], 3⟩ : LinkedList Nat)
        ((⟨[1, 2, 3], 3⟩ : LinkedList Nat).len - 1) = .ok (r, l2)) := by
  refine ⟨by decide, by decide, ?_⟩
  exact claim_pop_refines_remove_last (⟨[1, 2, 3], 3⟩ : LinkedList Nat)
    (by decide) (by decide)

/-- Claim C9: when `insert index x` or `remove index` aborts because
`index ≥ len`, the list is left completely unchanged: the out-of-range
check precedes every mutation, so the panic carries exactly the
pre-call state (same chain, same elements, same length). -/
theorem claim_abort_leaves_unchanged {T : Type} (l : LinkedList T) (i : Nat)
    (x : T) (h : l.len ≤ i) :
    l.insert i x = .error (LinkedList.insertPanicMsg i l.len, l) ∧
    l.remove i = .error (LinkedList.removePanicMsg i l.len, l) :=
  ⟨LinkedList.insert_eq_of_ge l i x h, LinkedList.remove_eq_of_ge l i h⟩

/-- Witness for C9 at `[4, 5]` with the out-of-range index 5. -/
theorem claim_abort_leaves_unchanged_witness :
    (⟨[4, 5], 2⟩ : LinkedList Nat).len ≤ 5 ∧
    (LinkedList.insert (⟨[4, 5], 2⟩ : LinkedList Nat) 5 0 =
      .error (LinkedList.insertPanicMsg 5 2, ⟨[4, 5], 2⟩) ∧
    LinkedList.remove (⟨[4, 5], 2⟩ : LinkedList Nat) 5 =
      .error (LinkedList.removePanicMsg 5 2, ⟨[4, 5], 2⟩)) :=
  ⟨by decide, claim_abort_leaves_unchanged ⟨[4, 5], 2⟩ 5 0 (by decide)⟩

/-- Claim C10: on every valid list, `push x` followed by `pop` returns
`some x` and restores exactly the element sequence and length the list
had before the push. -/
theorem claim_push_pop_roundtrip {T : Type} (l : LinkedList T) (x : T)
    (hInv : LinkedList.Inv l) :
    (l.push x).pop = .ok (some x, l) := by
  have hl : l.len = l.head.length := hInv
  have hp : l.push x = ⟨l.head ++ [x], l.len + 1⟩ := LinkedList.push_eq l x
  rw [hp]
  rw [LinkedList.pop_eq_of_inv ⟨l.head ++ [x], l.len + 1⟩
    (by simp [LinkedList.Inv, hl]) (by simp)]
  have h1 : (l.head ++ [x])[l.len + 1 - 1]? = some x := by
    rw [Nat.add_sub_cancel, List.getElem?_append_right (le_of_eq hl.symm)]
    simp [hl.symm]
  have h2 : (l.head ++ [x]).take (l.len + 1 - 1) = l.head := by
    rw [Nat.add_sub_cancel, hl]
    exact List.take_left l.head [x]
  dsimp only
  rw [h1, h2]
  rfl

/-- Witness for C10 at `[1, 2]` pushing 9. -/
theorem claim_push_pop_roundtrip_witness :
    LinkedList.Inv (⟨[1, 2], 2⟩ : LinkedList Nat) ∧
    ((⟨[1, 2], 2⟩ : LinkedList Nat).push 9).pop =
      .ok (some 9, ⟨[1, 2], 2⟩) :=
  ⟨by decide, claim_push_pop_roundtrip ⟨[1, 2], 2⟩ 9 (by decide)⟩
